import Mathlib

/-!
# Verification of the pngme chunk codec

Shallow embedding of the pngme PNG-chunk codec (src/chunk_type.rs,
src/chunk.rs, and the spec-described `Png` container) together with proofs
of the specification claims.  Bytes are modelled as `Nat` values with
explicit `< 256` bounds where they matter; 32-bit arithmetic is modelled
with explicit `% 2^32`.
-/

set_option maxRecDepth 100000

namespace Pngme

/-- `u32::to_be_bytes`: the four big-endian bytes of a 32-bit value. -/
def u32be (n : Nat) : List Nat :=
  [(n >>> 24) % 256, (n >>> 16) % 256, (n >>> 8) % 256, n % 256]

/-- `u32::from_be_bytes` applied to a 4-byte slice. -/
def u32fromBE (l : List Nat) : Nat :=
  ((l.getD 0 0) <<< 24) + ((l.getD 1 0) <<< 16) + ((l.getD 2 0) <<< 8) + l.getD 3 0

/-- One bit-step of the reflected CRC-32 used by `CRC_32_ISO_HDLC` in the
`crc` crate: shift right, conditionally xoring the reversed polynomial
`0xEDB88320`. -/
def crcStepBit (c : Nat) : Nat :=
  if c % 2 = 1 then (c >>> 1) ^^^ 0xEDB88320 else c >>> 1

/-- `n` iterations of `crcStepBit`. -/
def crcStepBits : Nat → Nat → Nat
  | 0, c => c
  | n + 1, c => crcStepBits n (crcStepBit c)

/-- Absorb one message byte into the CRC state. -/
def crcStepByte (c b : Nat) : Nat := crcStepBits 8 (c ^^^ b)

/-- Fold the CRC state over a message. -/
def crc32Loop (c : Nat) : List Nat → Nat
  | [] => c
  | b :: bs => crc32Loop (crcStepByte c b) bs

/-- CRC-32 with the ISO-HDLC parameters (reflected, init `0xFFFFFFFF`,
xorout `0xFFFFFFFF`): the checksum computed by
`Crc::<u32>::new(&CRC_32_ISO_HDLC).checksum` in `Chunk::crc`. -/
def crc32 (m : List Nat) : Nat := crc32Loop 0xFFFFFFFF m ^^^ 0xFFFFFFFF

/-- `ChunkType` (src/chunk_type.rs): a 4-byte chunk type code.  The Rust
field is `bytes: [u8; 4]`; here the four bytes are a list, with length-4
and `< 256` bounds carried as hypotheses where needed. -/
structure ChunkType where
  bytes : List Nat
deriving DecidableEq, Repr

/-- `ChunkType::is_critical`: bit 5 of byte 0 clear. -/
def ChunkType.is_critical (ct : ChunkType) : Bool :=
  ct.bytes.getD 0 0 &&& 0x20 == 0

/-- `ChunkType::is_public`: bit 5 of byte 1 clear. -/
def ChunkType.is_public (ct : ChunkType) : Bool :=
  ct.bytes.getD 1 0 &&& 0x20 == 0

/-- `ChunkType::is_reserved_bit_valid`: bit 5 of byte 2 clear. -/
def ChunkType.is_reserved_bit_valid (ct : ChunkType) : Bool :=
  ct.bytes.getD 2 0 &&& 0x20 == 0

/-- `ChunkType::is_safe_to_copy`: bit 5 of byte 3 set. -/
def ChunkType.is_safe_to_copy (ct : ChunkType) : Bool :=
  ct.bytes.getD 3 0 &&& 0x20 == 0x20

/-- `ChunkType::is_valid_byte`: ASCII uppercase or lowercase letter. -/
def ChunkType.is_valid_byte (b : Nat) : Bool :=
  (decide (65 ≤ b) && decide (b ≤ 90)) || (decide (97 ≤ b) && decide (b ≤ 122))

/-- `ChunkType::is_valid`: the reserved bit is valid and every byte is an
ASCII letter. -/
def ChunkType.is_valid (ct : ChunkType) : Bool :=
  ct.is_reserved_bit_valid && ct.bytes.all ChunkType.is_valid_byte

/-- `ChunkTypeError` (src/chunk_type.rs). -/
inductive ChunkTypeError where
  | byteLengthError (actual : Nat)
  | invalidCharacter
deriving DecidableEq, Repr

/-- `ChunkType::from_str` on the UTF-8 bytes of the input string: rejects
inputs whose byte length is not 4, then rejects any byte that is not an
ASCII letter. -/
def ChunkType.fromStr (s : List Nat) : Except ChunkTypeError ChunkType :=
  if s.length ≠ 4 then .error (.byteLengthError s.length)
  else if s.all ChunkType.is_valid_byte then .ok ⟨s⟩
  else .error .invalidCharacter

/-- `Chunk` (src/chunk.rs): a chunk type together with opaque payload
bytes. -/
structure Chunk where
  chunk_type : ChunkType
  data : List Nat
deriving DecidableEq, Repr

/-- `Chunk::length`: `self.data.len() as u32`, i.e. the payload byte count
truncated to 32 bits. -/
def Chunk.length (c : Chunk) : Nat := c.data.length % 4294967296

/-- `Chunk::crc`: CRC-32 (ISO-HDLC) over the 4 type bytes followed by the
payload bytes. -/
def Chunk.crc (c : Chunk) : Nat := crc32 (c.chunk_type.bytes ++ c.data)

/-- `Chunk::as_bytes`: big-endian length, type bytes, payload, big-endian
CRC. -/
def Chunk.as_bytes (c : Chunk) : List Nat :=
  u32be c.length ++ c.chunk_type.bytes ++ c.data ++ u32be c.crc

/-- `ChunkError` (src/chunk.rs). -/
inductive ChunkError where
  | inputTooShort
  | invalidCrc (expected actual : Nat)
  | invalidChunkType
deriving DecidableEq, Repr

/-- Outcome of `Chunk::try_from`: success, an error value, or a Rust panic
(`slice::split_at` panics when its index exceeds the slice length). -/
inductive TryFromResult where
  | ok (c : Chunk)
  | err (e : ChunkError)
  | panic
deriving DecidableEq, Repr

/-- `Chunk::try_from(&[u8])` (src/chunk.rs lines 89-122): reject inputs
shorter than the 12 metadata bytes, split off the big-endian length and
the type code, reject invalid type codes, split off `length` payload
bytes and 4 CRC bytes (`split_at` panics when not enough bytes remain),
and compare the declared CRC with the recomputed one. -/
def Chunk.tryFrom (bytes : List Nat) : TryFromResult :=
  if bytes.length < 12 then .err .inputTooShort
  else
    let dataLength := u32fromBE (bytes.take 4)
    let rest := bytes.drop 4
    let chunk_type : ChunkType := ⟨rest.take 4⟩
    let rest2 := rest.drop 4
    if ¬ chunk_type.is_valid then .err .invalidChunkType
    else if rest2.length < dataLength then .panic
    else
      let data := rest2.take dataLength
      let rest3 := rest2.drop dataLength
      if rest3.length < 4 then .panic
      else
        let declaredCrc := u32fromBE (rest3.take 4)
        let chunk : Chunk := ⟨chunk_type, data⟩
        if chunk.crc ≠ declaredCrc then .err (.invalidCrc chunk.crc declaredCrc)
        else .ok chunk

/-! ## Basic facts about the byte-level helpers -/

theorem length_u32be (n : Nat) : (u32be n).length = 4 := rfl

theorem u32be_bytes_lt (n : Nat) : ∀ b ∈ u32be n, b < 256 := by
  intro b hb
  simp only [u32be, List.mem_cons, List.not_mem_nil, or_false] at hb
  rcases hb with rfl | rfl | rfl | rfl <;> exact Nat.mod_lt _ (by omega)

theorem u32fromBE_u32be (n : Nat) (h : n < 4294967296) :
    u32fromBE (u32be n) = n := by
  simp only [u32be, u32fromBE, List.getD, List.getElem?_cons_zero,
    List.getElem?_cons_succ, Option.getD_some, Nat.shiftRight_eq_div_pow,
    Nat.shiftLeft_eq]
  norm_num
  omega

theorem take_append_of_length {α : Type} (l1 l2 : List α) (n : Nat)
    (h : l1.length = n) : (l1 ++ l2).take n = l1 := by
  subst h; exact List.take_left l1 l2

theorem drop_append_of_length {α : Type} (l1 l2 : List α) (n : Nat)
    (h : l1.length = n) : (l1 ++ l2).drop n = l2 := by
  subst h; exact List.drop_left l1 l2

/-- Layout lemma for `Chunk::try_from`: on a well-formed frame
`length ‖ type ‖ payload ‖ declared-crc ‖ extra` the parser checks the type
code and then compares the recomputed CRC with the declared one. -/
theorem tryFrom_layout (tb d : List Nat) (k : Nat) (extra : List Nat)
    (htb : tb.length = 4) (hd : d.length < 4294967296) (hk : k < 4294967296) :
    Chunk.tryFrom (u32be d.length ++ tb ++ d ++ u32be k ++ extra) =
      if ChunkType.is_valid ⟨tb⟩ = false then .err .invalidChunkType
      else if crc32 (tb ++ d) ≠ k then
        .err (.invalidCrc (crc32 (tb ++ d)) k)
      else .ok ⟨⟨tb⟩, d⟩ := by
  have hlen : (u32be d.length ++ tb ++ d ++ u32be k ++ extra).length =
      12 + d.length + extra.length := by
    simp [length_u32be, htb]; omega
  have htake4 : (u32be d.length ++ tb ++ d ++ u32be k ++ extra).take 4 =
      u32be d.length := by
    rw [List.append_assoc, List.append_assoc, List.append_assoc]
    exact take_append_of_length _ _ 4 (length_u32be _)
  have hdrop4 : (u32be d.length ++ tb ++ d ++ u32be k ++ extra).drop 4 =
      tb ++ (d ++ (u32be k ++ extra)) := by
    rw [List.append_assoc, List.append_assoc, List.append_assoc]
    exact drop_append_of_length _ _ 4 (length_u32be _)
  have htaketb : (tb ++ (d ++ (u32be k ++ extra))).take 4 = tb :=
    take_append_of_length _ _ 4 htb
  have hdroptb : (tb ++ (d ++ (u32be k ++ extra))).drop 4 =
      d ++ (u32be k ++ extra) := drop_append_of_length _ _ 4 htb
  have htaked : (d ++ (u32be k ++ extra)).take d.length = d :=
    take_append_of_length _ _ _ rfl
  have hdropd : (d ++ (u32be k ++ extra)).drop d.length = u32be k ++ extra :=
    drop_append_of_length _ _ _ rfl
  have htakek : (u32be k ++ extra).take 4 = u32be k :=
    take_append_of_length _ _ 4 (length_u32be _)
  unfold Chunk.tryFrom
  rw [if_neg (by omega)]
  simp only [htake4, hdrop4, htaketb, hdroptb, u32fromBE_u32be d.length hd,
    htaked, hdropd, htakek, u32fromBE_u32be k hk, Chunk.crc,
    List.length_append, length_u32be, Bool.not_eq_true]
  have h2 : ¬ (d.length + (4 + extra.length) < d.length) := by omega
  have h3 : ¬ (4 + extra.length < 4) := by omega
  by_cases hv : ChunkType.is_valid ⟨tb⟩ = false
  · simp [hv]
  · simp [hv, h2, h3]

/-! ## CRC-32: bounds, injectivity of the state transition, and
sensitivity to a single changed byte -/

theorem xor_lt_32 {a b : Nat} (ha : a < 4294967296) (hb : b < 4294967296) :
    a ^^^ b < 4294967296 := by
  have h : (4294967296 : Nat) = 2 ^ 32 := by norm_num
  rw [h] at ha hb ⊢
  exact Nat.xor_lt_two_pow ha hb

theorem xor_right_cancel {a b k : Nat} (h : a ^^^ k = b ^^^ k) : a = b := by
  have h2 := congrArg (fun z => z ^^^ k) h
  simpa [Nat.xor_assoc] using h2

theorem xor_left_cancel {a b k : Nat} (h : k ^^^ a = k ^^^ b) : a = b := by
  rw [Nat.xor_comm k a, Nat.xor_comm k b] at h
  exact xor_right_cancel h

theorem crcStepBit_lt {c : Nat} (h : c < 4294967296) :
    crcStepBit c < 4294967296 := by
  unfold crcStepBit
  have h1 : c >>> 1 < 4294967296 := by rw [Nat.shiftRight_one]; omega
  split
  · exact xor_lt_32 h1 (by norm_num)
  · exact h1

theorem crcStepBits_lt (n : Nat) : ∀ {c : Nat}, c < 4294967296 →
    crcStepBits n c < 4294967296 := by
  induction n with
  | zero => intro c h; exact h
  | succ n ih => intro c h; exact ih (crcStepBit_lt h)

theorem crcStepByte_lt {c b : Nat} (hc : c < 4294967296) (hb : b < 4294967296) :
    crcStepByte c b < 4294967296 :=
  crcStepBits_lt 8 (xor_lt_32 hc hb)

theorem crc32Loop_lt (m : List Nat) : ∀ {c : Nat}, c < 4294967296 →
    (∀ b ∈ m, b < 4294967296) → crc32Loop c m < 4294967296 := by
  induction m with
  | nil => intro c hc _; exact hc
  | cons b bs ih =>
    intro c hc hm
    exact ih (crcStepByte_lt hc (hm b (by simp))) (fun x hx => hm x (by simp [hx]))

theorem crc32_lt (m : List Nat) (hm : ∀ b ∈ m, b < 4294967296) :
    crc32 m < 4294967296 :=
  xor_lt_32 (crc32Loop_lt m (by norm_num) hm) (by norm_num)

/-- Explicit inverse of `crcStepBit` on 32-bit states: bit 31 of the output
records the parity of the input because the reversed polynomial has its top
bit set. -/
def crcStepBitInv (o : Nat) : Nat :=
  if o.testBit 31 then ((o ^^^ 0xEDB88320) <<< 1) + 1 else o <<< 1

theorem crcStepBitInv_crcStepBit {c : Nat} (h : c < 4294967296) :
    crcStepBitInv (crcStepBit c) = c := by
  have hpow : (2 : Nat) ^ 31 = 2147483648 := by norm_num
  have hlt : c >>> 1 < 2 ^ 31 := by rw [Nat.shiftRight_one, hpow]; omega
  have hbit0 : (c >>> 1).testBit 31 = false := Nat.testBit_lt_two_pow hlt
  unfold crcStepBit crcStepBitInv
  by_cases hp : c % 2 = 1
  · rw [if_pos hp]
    have hbit : ((c >>> 1) ^^^ 0xEDB88320).testBit 31 = true := by
      rw [Nat.testBit_xor, hbit0]
      decide
    rw [if_pos hbit, Nat.xor_assoc, Nat.xor_self, Nat.xor_zero,
      Nat.shiftRight_one, Nat.shiftLeft_eq]
    norm_num
    omega
  · rw [if_neg hp, if_neg (by rw [hbit0]; exact Bool.false_ne_true),
      Nat.shiftRight_one, Nat.shiftLeft_eq]
    norm_num
    omega

theorem crcStepBit_inj {a b : Nat} (ha : a < 4294967296) (hb : b < 4294967296)
    (h : crcStepBit a = crcStepBit b) : a = b := by
  have h2 := congrArg crcStepBitInv h
  rwa [crcStepBitInv_crcStepBit ha, crcStepBitInv_crcStepBit hb] at h2

theorem crcStepBits_inj (n : Nat) : ∀ {a b : Nat}, a < 4294967296 →
    b < 4294967296 → crcStepBits n a = crcStepBits n b → a = b := by
  induction n with
  | zero => intro a b _ _ h; exact h
  | succ n ih =>
    intro a b ha hb h
    exact crcStepBit_inj ha hb (ih (crcStepBit_lt ha) (crcStepBit_lt hb) h)

theorem crcStepByte_state_inj {c1 c2 b : Nat} (hc1 : c1 < 4294967296)
    (hc2 : c2 < 4294967296) (hb : b < 4294967296)
    (h : crcStepByte c1 b = crcStepByte c2 b) : c1 = c2 :=
  xor_right_cancel (crcStepBits_inj 8 (xor_lt_32 hc1 hb) (xor_lt_32 hc2 hb) h)

theorem crcStepByte_byte_inj {c b1 b2 : Nat} (hc : c < 4294967296)
    (hb1 : b1 < 4294967296) (hb2 : b2 < 4294967296)
    (h : crcStepByte c b1 = crcStepByte c b2) : b1 = b2 :=
  xor_left_cancel (crcStepBits_inj 8 (xor_lt_32 hc hb1) (xor_lt_32 hc hb2) h)

theorem crc32Loop_ne (m : List Nat) : ∀ {c1 c2 : Nat}, c1 < 4294967296 →
    c2 < 4294967296 → (∀ b ∈ m, b < 4294967296) → c1 ≠ c2 →
    crc32Loop c1 m ≠ crc32Loop c2 m := by
  induction m with
  | nil => intro c1 c2 _ _ _ hne; exact hne
  | cons b bs ih =>
    intro c1 c2 h1 h2 hm hne
    have hb : b < 4294967296 := hm b (by simp)
    apply ih (crcStepByte_lt h1 hb) (crcStepByte_lt h2 hb)
      (fun x hx => hm x (by simp [hx]))
    intro heq
    exact hne (crcStepByte_state_inj h1 h2 hb heq)

theorem crc32Loop_cons (c b : Nat) (bs : List Nat) :
    crc32Loop c (b :: bs) = crc32Loop (crcStepByte c b) bs := rfl

theorem crc32Loop_append (c : Nat) (l1 l2 : List Nat) :
    crc32Loop c (l1 ++ l2) = crc32Loop (crc32Loop c l1) l2 := by
  induction l1 generalizing c with
  | nil => rfl
  | cons b bs ih => exact ih (crcStepByte c b)

/-- Changing a single byte of a message always changes its CRC-32. -/
theorem crc32_ne_of_single_byte_diff (pre suf : List Nat) {x y : Nat}
    (hpre : ∀ b ∈ pre, b < 4294967296) (hsuf : ∀ b ∈ suf, b < 4294967296)
    (hx : x < 4294967296) (hy : y < 4294967296) (hne : x ≠ y) :
    crc32 (pre ++ x :: suf) ≠ crc32 (pre ++ y :: suf) := by
  unfold crc32
  intro h
  have h2 := xor_right_cancel h
  rw [crc32Loop_append, crc32Loop_append, crc32Loop_cons, crc32Loop_cons] at h2
  have hcb : crc32Loop 0xFFFFFFFF pre < 4294967296 :=
    crc32Loop_lt pre (by norm_num) hpre
  have hstep : crcStepByte (crc32Loop 0xFFFFFFFF pre) x ≠
      crcStepByte (crc32Loop 0xFFFFFFFF pre) y := by
    intro he
    exact hne (crcStepByte_byte_inj hcb hx hy he)
  exact crc32Loop_ne suf (crcStepByte_lt hcb hx) (crcStepByte_lt hcb hy)
    hsuf hstep h2

/-! ## Chunk-level helper lemmas -/

theorem bytes_lt_append {l1 l2 : List Nat} (h1 : ∀ b ∈ l1, b < 256)
    (h2 : ∀ b ∈ l2, b < 256) : ∀ b ∈ l1 ++ l2, b < 4294967296 := by
  intro b hb
  rcases List.mem_append.mp hb with h | h
  · exact lt_trans (h1 b h) (by norm_num)
  · exact lt_trans (h2 b h) (by norm_num)

/-- A well-formed chunk frame followed by arbitrary trailing bytes parses
back to the chunk itself. -/
theorem tryFrom_frame (tb d extra : List Nat) (htb : tb.length = 4)
    (hv : ChunkType.is_valid ⟨tb⟩ = true)
    (htbb : ∀ b ∈ tb, b < 256) (hdb : ∀ b ∈ d, b < 256)
    (hd : d.length < 4294967296) :
    Chunk.tryFrom (Chunk.as_bytes ⟨⟨tb⟩, d⟩ ++ extra) = .ok ⟨⟨tb⟩, d⟩ := by
  have hk : crc32 (tb ++ d) < 4294967296 :=
    crc32_lt _ (bytes_lt_append htbb hdb)
  have hlay := tryFrom_layout tb d (crc32 (tb ++ d)) extra htb hd hk
  have hlen : Chunk.length ⟨⟨tb⟩, d⟩ = d.length := Nat.mod_eq_of_lt hd
  have hab : Chunk.as_bytes ⟨⟨tb⟩, d⟩ ++ extra =
      u32be d.length ++ tb ++ d ++ u32be (crc32 (tb ++ d)) ++ extra := by
    unfold Chunk.as_bytes
    rw [hlen]
    rfl
  rw [hab, hlay]
  simp [hv]

/-- C1.  Round trip: a chunk built by `Chunk::new` from a valid type code
and a payload whose byte count fits in `u32` is recovered exactly (type
bytes, payload and CRC) by `Chunk::try_from` on its `as_bytes` output. -/
theorem chunk_roundtrip (tb d : List Nat) (htb : tb.length = 4)
    (hv : ChunkType.is_valid ⟨tb⟩ = true)
    (htbb : ∀ b ∈ tb, b < 256) (hdb : ∀ b ∈ d, b < 256)
    (hd : d.length < 4294967296) :
    Chunk.tryFrom (Chunk.as_bytes ⟨⟨tb⟩, d⟩) = .ok ⟨⟨tb⟩, d⟩ := by
  have h := tryFrom_frame tb d [] htb hv htbb hdb hd
  rwa [List.append_nil] at h

/-- Witness for C1 at the type code `RuSt` with payload `[1, 2, 3]`. -/
theorem chunk_roundtrip_witness :
    Chunk.tryFrom (Chunk.as_bytes ⟨⟨[82, 117, 83, 116]⟩, [1, 2, 3]⟩) =
      .ok ⟨⟨[82, 117, 83, 116]⟩, [1, 2, 3]⟩ :=
  chunk_roundtrip [82, 117, 83, 116] [1, 2, 3] (by decide) (by decide)
    (by decide) (by decide) (by decide)

/-- C9.  Trailing bytes after a chunk's exact serialization are ignored:
`Chunk::try_from` returns the same successfully decoded chunk on the
extended slice as on the exact slice. -/
theorem tryFrom_trailing_bytes (tb d extra : List Nat) (htb : tb.length = 4)
    (hv : ChunkType.is_valid ⟨tb⟩ = true)
    (htbb : ∀ b ∈ tb, b < 256) (hdb : ∀ b ∈ d, b < 256)
    (hd : d.length < 4294967296) :
    Chunk.tryFrom (Chunk.as_bytes ⟨⟨tb⟩, d⟩ ++ extra) =
      Chunk.tryFrom (Chunk.as_bytes ⟨⟨tb⟩, d⟩) ∧
    Chunk.tryFrom (Chunk.as_bytes ⟨⟨tb⟩, d⟩ ++ extra) = .ok ⟨⟨tb⟩, d⟩ := by
  have h1 := tryFrom_frame tb d extra htb hv htbb hdb hd
  have h2 := tryFrom_frame tb d [] htb hv htbb hdb hd
  rw [List.append_nil] at h2
  exact ⟨h1.trans h2.symm, h1⟩

/-- Witness for C9: trailing garbage `[255, 0, 7]` after the `RuSt` frame. -/
theorem tryFrom_trailing_bytes_witness :
    Chunk.tryFrom (Chunk.as_bytes ⟨⟨[82, 117, 83, 116]⟩, [9]⟩ ++ [255, 0, 7]) =
      .ok ⟨⟨[82, 117, 83, 116]⟩, [9]⟩ :=
  (tryFrom_trailing_bytes [82, 117, 83, 116] [9] [255, 0, 7] (by decide)
    (by decide) (by decide) (by decide) (by decide)).2

/-- The type code `RuSt`. -/
def rustType : List Nat := [82, 117, 83, 116]

/-- The UTF-8 bytes of `This is where your secret message will be!`. -/
def secretMsg : List Nat :=
  [84, 104, 105, 115, 32, 105, 115, 32, 119, 104, 101, 114, 101, 32, 121,
   111, 117, 114, 32, 115, 101, 99, 114, 101, 116, 32, 109, 101, 115, 115,
   97, 103, 101, 32, 119, 105, 108, 108, 32, 98, 101, 33]

/-- C5.  Known checksum vector: the `RuSt` chunk carrying the 42-byte
secret message has length 42 and CRC `2882656334`, and the 54-byte buffer
declaring CRC `2882656333` instead is rejected by `Chunk::try_from`. -/
theorem known_vector :
    Chunk.length ⟨⟨rustType⟩, secretMsg⟩ = 42 ∧
    Chunk.crc ⟨⟨rustType⟩, secretMsg⟩ = 2882656334 ∧
    (u32be 42 ++ rustType ++ secretMsg ++ u32be 2882656333).length = 54 ∧
    Chunk.tryFrom (u32be 42 ++ rustType ++ secretMsg ++ u32be 2882656333) =
      .err (.invalidCrc 2882656334 2882656333) := by
  refine ⟨rfl, by decide, rfl, by decide⟩

/-- C2.  Inputs shorter than the 12 metadata bytes are rejected with
`ChunkError::InputTooShort`; but a 12-byte input whose declared length
exceeds the remaining payload bytes makes `Chunk::try_from` panic inside
`slice::split_at` instead of returning `InputTooShort`. -/
theorem tooShort_and_overrun_panic :
    (∀ bytes : List Nat, bytes.length < 12 →
      Chunk.tryFrom bytes = .err .inputTooShort) ∧
    Chunk.tryFrom [0, 0, 0, 1, 82, 117, 83, 116, 0, 0, 0, 0] = .panic := by
  constructor
  · intro bytes h
    unfold Chunk.tryFrom
    rw [if_pos h]
  · decide

/-- Witness for C2 on an 11-byte input. -/
theorem tooShort_witness :
    Chunk.tryFrom [0, 0, 0, 0, 82, 117, 83, 116, 0, 0, 0] =
      .err .inputTooShort :=
  tooShort_and_overrun_panic.1 [0, 0, 0, 0, 82, 117, 83, 116, 0, 0, 0]
    (by decide)

/-! ## Chunk type claims -/

theorem is_valid_byte_iff (b : Nat) :
    ChunkType.is_valid_byte b = true ↔
      (65 ≤ b ∧ b ≤ 90) ∨ (97 ≤ b ∧ b ≤ 122) := by
  simp [ChunkType.is_valid_byte]

theorem and_32_eq_zero_iff (b : Nat) :
    ((b &&& 32 == 0) = true) ↔ b.testBit 5 = false := by
  have h : (32 : Nat) = 2 ^ 5 := by norm_num
  rw [beq_iff_eq, h, Nat.and_two_pow]
  cases hb : b.testBit 5 <;> simp

theorem and_32_eq_32_iff (b : Nat) :
    ((b &&& 32 == 32) = true) ↔ b.testBit 5 = true := by
  have h : (32 : Nat) = 2 ^ 5 := by norm_num
  rw [beq_iff_eq, h, Nat.and_two_pow]
  cases hb : b.testBit 5 <;> simp

/-- C6.  `ChunkType::from_str` succeeds exactly on 4-byte all-ASCII-letter
strings, fails with `ByteLengthError` on any other length, fails with
`InvalidCharacter` on a 4-byte string containing a non-letter, and on
success returns exactly the input bytes. -/
theorem fromStr_spec (s : List Nat) :
    ((∃ ct, ChunkType.fromStr s = .ok ct) ↔
      (s.length = 4 ∧ ∀ b ∈ s, (65 ≤ b ∧ b ≤ 90) ∨ (97 ≤ b ∧ b ≤ 122))) ∧
    (s.length ≠ 4 → ChunkType.fromStr s = .error (.byteLengthError s.length)) ∧
    (s.length = 4 → (∃ b ∈ s, ¬ ((65 ≤ b ∧ b ≤ 90) ∨ (97 ≤ b ∧ b ≤ 122))) →
      ChunkType.fromStr s = .error .invalidCharacter) ∧
    (∀ ct, ChunkType.fromStr s = .ok ct → ct.bytes = s) := by
  have hall : (s.all ChunkType.is_valid_byte = true) ↔
      ∀ b ∈ s, (65 ≤ b ∧ b ≤ 90) ∨ (97 ≤ b ∧ b ≤ 122) := by
    rw [List.all_eq_true]
    exact forall_congr' fun b => forall_congr' fun _ => is_valid_byte_iff b
  by_cases h4 : s.length = 4
  · by_cases ha : s.all ChunkType.is_valid_byte = true
    · have hok : ChunkType.fromStr s = .ok ⟨s⟩ := by
        unfold ChunkType.fromStr
        rw [if_neg (by omega), if_pos ha]
      refine ⟨⟨fun _ => ⟨h4, hall.mp ha⟩, fun _ => ⟨⟨s⟩, hok⟩⟩,
        fun h => absurd h4 h, fun _ hex => ?_, fun ct hct => ?_⟩
      · exact absurd (hall.mp ha) (by simpa using hex)
      · rw [hok] at hct
        cases hct
        rfl
    · have herr : ChunkType.fromStr s = .error .invalidCharacter := by
        unfold ChunkType.fromStr
        rw [if_neg (by omega), if_neg ha]
      refine ⟨⟨fun ⟨ct, hct⟩ => ?_, fun ⟨_, hl⟩ => absurd (hall.mpr hl) ha⟩,
        fun h => absurd h4 h, fun _ _ => herr, fun ct hct => ?_⟩
      · rw [herr] at hct; cases hct
      · rw [herr] at hct; cases hct
  · have herr : ChunkType.fromStr s = .error (.byteLengthError s.length) := by
      unfold ChunkType.fromStr
      rw [if_pos h4]
    refine ⟨⟨fun ⟨ct, hct⟩ => ?_, fun ⟨hl, _⟩ => absurd hl h4⟩,
      fun _ => herr, fun hl _ => absurd hl h4, fun ct hct => ?_⟩
    · rw [herr] at hct; cases hct
    · rw [herr] at hct; cases hct

/-- Witness for C6 on the spec's vector `Ru1t` (contains the digit `1`). -/
theorem fromStr_witness :
    ChunkType.fromStr [82, 117, 49, 116] = .error .invalidCharacter :=
  (fromStr_spec [82, 117, 49, 116]).2.2.1 (by decide) (by decide)

/-- C7.  `is_valid` holds exactly when bit 5 of byte 2 is clear and all
four bytes are ASCII letters; given at least the 12 metadata bytes,
`Chunk::try_from` fails with `InvalidChunkType` exactly when the decoded
type code fails that predicate. -/
theorem is_valid_spec :
    (∀ ct : ChunkType, ChunkType.is_valid ct = true ↔
      ((ct.bytes.getD 2 0).testBit 5 = false ∧
        ∀ b ∈ ct.bytes, (65 ≤ b ∧ b ≤ 90) ∨ (97 ≤ b ∧ b ≤ 122))) ∧
    (∀ bytes : List Nat, 12 ≤ bytes.length →
      (Chunk.tryFrom bytes = .err .invalidChunkType ↔
        ChunkType.is_valid ⟨(bytes.drop 4).take 4⟩ = false)) := by
  constructor
  · intro ct
    unfold ChunkType.is_valid ChunkType.is_reserved_bit_valid
    rw [Bool.and_eq_true, and_32_eq_zero_iff, List.all_eq_true]
    exact and_congr Iff.rfl
      (forall_congr' fun b => forall_congr' fun _ => is_valid_byte_iff b)
  · intro bytes h12
    unfold Chunk.tryFrom
    rw [if_neg (by omega)]
    by_cases hv : ChunkType.is_valid ⟨(bytes.drop 4).take 4⟩ = true
    · simp only [hv, Bool.true_eq_false, iff_false, not_true_eq_false,
        if_false]
      split
      · simp
      · split
        · simp
        · split <;> simp
    · have hv2 : ChunkType.is_valid ⟨(bytes.drop 4).take 4⟩ = false := by
        simpa using hv
      simp [hv2]

/-- Witness for C7: a 12-byte input with the invalid type code `Rust`. -/
theorem is_valid_spec_witness :
    Chunk.tryFrom [0, 0, 0, 0, 82, 117, 115, 116, 0, 0, 0, 0] =
      .err .invalidChunkType :=
  (is_valid_spec.2 [0, 0, 0, 0, 82, 117, 115, 116, 0, 0, 0, 0]
    (by decide)).mpr (by decide)

/-- C8.  Each property accessor tests bit 5 of one byte (`is_safe_to_copy`
tests that the bit is set, the others that it is clear), and the spec's
literal vectors for `RuSt`, `ruSt`, `RUSt`, `Rust`, `RuST` hold. -/
theorem bit_properties :
    (∀ ct : ChunkType,
      (ct.is_critical = true ↔ (ct.bytes.getD 0 0).testBit 5 = false) ∧
      (ct.is_public = true ↔ (ct.bytes.getD 1 0).testBit 5 = false) ∧
      (ct.is_reserved_bit_valid = true ↔
        (ct.bytes.getD 2 0).testBit 5 = false) ∧
      (ct.is_safe_to_copy = true ↔ (ct.bytes.getD 3 0).testBit 5 = true)) ∧
    (ChunkType.is_critical ⟨[82, 117, 83, 116]⟩ = true ∧
      ChunkType.is_public ⟨[82, 117, 83, 116]⟩ = false ∧
      ChunkType.is_reserved_bit_valid ⟨[82, 117, 83, 116]⟩ = true ∧
      ChunkType.is_safe_to_copy ⟨[82, 117, 83, 116]⟩ = true) ∧
    ChunkType.is_critical ⟨[114, 117, 83, 116]⟩ = false ∧
    ChunkType.is_public ⟨[82, 85, 83, 116]⟩ = true ∧
    (ChunkType.is_reserved_bit_valid ⟨[82, 117, 115, 116]⟩ = false ∧
      ChunkType.is_valid ⟨[82, 117, 115, 116]⟩ = false) ∧
    ChunkType.is_safe_to_copy ⟨[82, 117, 83, 84]⟩ = false := by
  refine ⟨fun ct => ⟨?_, ?_, ?_, ?_⟩, by decide, by decide, by decide,
    by decide, by decide⟩
  · exact and_32_eq_zero_iff _
  · exact and_32_eq_zero_iff _
  · exact and_32_eq_zero_iff _
  · exact and_32_eq_32_iff _

/-- C10.  `Chunk::length` is the payload byte count truncated to 32 bits:
always in range, written back as the 4-byte length field by `as_bytes`,
equal to the true count when it fits in `u32`, and silently smaller than
the true count otherwise. -/
theorem length_truncates (c : Chunk) :
    Chunk.length c < 4294967296 ∧
    (Chunk.as_bytes c).take 4 = u32be (Chunk.length c) ∧
    (c.data.length < 4294967296 → Chunk.length c = c.data.length) ∧
    (4294967296 ≤ c.data.length →
      Chunk.length c ≠ c.data.length ∧
      Chunk.length c = c.data.length % 4294967296) := by
  refine ⟨Nat.mod_lt _ (by omega), ?_, fun h => Nat.mod_eq_of_lt h, fun h => ?_⟩
  · unfold Chunk.as_bytes
    rw [List.append_assoc, List.append_assoc]
    exact take_append_of_length _ _ 4 (length_u32be _)
  · have hlt : c.data.length % 4294967296 < 4294967296 :=
      Nat.mod_lt _ (by omega)
    exact ⟨by unfold Chunk.length; omega, rfl⟩

/-- Witness for C10: a payload of `2^32 + 1` zero bytes reports length 1. -/
theorem length_truncates_witness :
    Chunk.length ⟨⟨[82, 117, 83, 116]⟩, List.replicate 4294967297 0⟩ = 1 := by
  have hdl : (Chunk.mk ⟨[82, 117, 83, 116]⟩
      (List.replicate 4294967297 0)).data.length = 4294967297 :=
    List.length_replicate _ _
  have h := (length_truncates
    (Chunk.mk ⟨[82, 117, 83, 116]⟩ (List.replicate 4294967297 0))).2.2.2
    (by rw [hdl]; omega)
  rw [hdl] at h
  rw [h.2]

/-! ## C3: checksum sensitivity to single-bit corruption -/

/-- Flip bit `k` of the byte at index `j` of a byte list. -/
def flipBit (l : List Nat) (j k : Nat) : List Nat :=
  l.set j ((l.getD j 0) ^^^ (1 <<< k))

/-- Does a `Chunk::try_from` outcome carry the `InvalidCrc` error kind? -/
def isInvalidCrcErr : TryFromResult → Bool
  | .err (.invalidCrc _ _) => true
  | _ => false

theorem flipBit_append_right (A B : List Nat) (j k : Nat)
    (h : A.length ≤ j) :
    flipBit (A ++ B) j k = A ++ flipBit B (j - A.length) k := by
  unfold flipBit
  rw [List.getD_append_right A B 0 j h, List.set_append_right _ _ h]

theorem flipBit_append_left (A B : List Nat) (j k : Nat)
    (h : j < A.length) :
    flipBit (A ++ B) j k = flipBit A j k ++ B := by
  unfold flipBit
  rw [List.getD_append A B 0 j h, List.set_append_left _ _ h]

theorem flipBit_eq_take_cons_drop (l : List Nat) (j k : Nat)
    (h : j < l.length) :
    flipBit l j k = l.take j ++ (l.getD j 0 ^^^ (1 <<< k)) :: l.drop (j + 1) :=
  List.set_eq_take_cons_drop _ h

theorem eq_take_cons_drop (l : List Nat) (j : Nat) (h : j < l.length) :
    l = l.take j ++ l.getD j 0 :: l.drop (j + 1) := by
  have h2 : l.getD j 0 :: l.drop (j + 1) = l.drop j := by
    rw [List.getD_eq_getElem _ _ h]
    exact List.getElem_cons_drop l j h
  rw [h2, List.take_append_drop]

theorem flipBit_byte_ne (x k : Nat) : x ^^^ (1 <<< k) ≠ x := by
  intro h
  have h0 : x ^^^ (1 <<< k) = x ^^^ 0 := by rw [Nat.xor_zero]; exact h
  have h1 := xor_left_cancel h0
  have h2 : (0 : Nat) < 1 <<< k := by
    rw [Nat.shiftLeft_eq, one_mul]
    exact pow_pos (by omega) k
  omega

theorem flipBit_byte_lt {x k : Nat} (hx : x < 256) (hk : k < 8) :
    x ^^^ (1 <<< k) < 256 := by
  have h1 : (1 : Nat) <<< k = 2 ^ k := by rw [Nat.shiftLeft_eq, one_mul]
  have h2 : (2 : Nat) ^ k < 2 ^ 8 := Nat.pow_lt_pow_right (by omega) hk
  have h256 : (256 : Nat) = 2 ^ 8 := by norm_num
  rw [h256] at hx ⊢
  rw [h1]
  exact Nat.xor_lt_two_pow hx h2

theorem crc32_ne_flip (pre suf : List Nat) (x k : Nat)
    (hpre : ∀ b ∈ pre, b < 256) (hsuf : ∀ b ∈ suf, b < 256)
    (hx : x < 256) (hk : k < 8) :
    crc32 (pre ++ (x ^^^ (1 <<< k)) :: suf) ≠ crc32 (pre ++ x :: suf) :=
  crc32_ne_of_single_byte_diff pre suf
    (fun b hb => lt_trans (hpre b hb) (by norm_num))
    (fun b hb => lt_trans (hsuf b hb) (by norm_num))
    (lt_trans (flipBit_byte_lt hx hk) (by norm_num))
    (lt_trans hx (by norm_num))
    (flipBit_byte_ne x k)

/-- C3 counterexample: flipping bit 5 of serialized byte 6 (type-code
byte 2 of `RuSt`) turns the type into the invalid `Rust`, so
`Chunk::try_from` fails with `InvalidChunkType`, not `InvalidCrc`. -/
theorem checksum_sensitivity_counterexample :
    Chunk.tryFrom (flipBit (Chunk.as_bytes ⟨⟨rustType⟩, []⟩) 6 5) =
      .err .invalidChunkType ∧
    isInvalidCrcErr
      (Chunk.tryFrom (flipBit (Chunk.as_bytes ⟨⟨rustType⟩, []⟩) 6 5)) =
      false := by
  exact ⟨by decide, by decide⟩

/-- C3 (amended).  Flipping any single bit of the payload region of a
serialized chunk makes `Chunk::try_from` fail with `InvalidCrc`; flipping
a single bit of the type-code region also makes it fail, with `InvalidCrc`
when the flipped type code is still valid and with `InvalidChunkType`
otherwise. -/
theorem checksum_sensitivity (tb d : List Nat) (j k : Nat)
    (htb : tb.length = 4) (hv : ChunkType.is_valid ⟨tb⟩ = true)
    (htbb : ∀ b ∈ tb, b < 256) (hdb : ∀ b ∈ d, b < 256)
    (hd : d.length < 4294967296) (hk : k < 8)
    (hj1 : 4 ≤ j) (hj2 : j < 8 + d.length) :
    (8 ≤ j →
      isInvalidCrcErr
        (Chunk.tryFrom (flipBit (Chunk.as_bytes ⟨⟨tb⟩, d⟩) j k)) = true) ∧
    (j < 8 →
      (ChunkType.is_valid ⟨flipBit tb (j - 4) k⟩ = true →
        isInvalidCrcErr
          (Chunk.tryFrom (flipBit (Chunk.as_bytes ⟨⟨tb⟩, d⟩) j k)) = true) ∧
      (ChunkType.is_valid ⟨flipBit tb (j - 4) k⟩ = false →
        Chunk.tryFrom (flipBit (Chunk.as_bytes ⟨⟨tb⟩, d⟩) j k) =
          .err .invalidChunkType)) := by
  have hK : crc32 (tb ++ d) < 4294967296 := crc32_lt _ (bytes_lt_append htbb hdb)
  have h1 : Chunk.length ⟨⟨tb⟩, d⟩ = d.length := Nat.mod_eq_of_lt hd
  have hab : Chunk.as_bytes ⟨⟨tb⟩, d⟩ =
      u32be d.length ++ ((tb ++ d) ++ u32be (crc32 (tb ++ d))) := by
    unfold Chunk.as_bytes
    rw [h1]
    simp [Chunk.crc, List.append_assoc]
  have hflip : flipBit (Chunk.as_bytes ⟨⟨tb⟩, d⟩) j k =
      u32be d.length ++
        (flipBit (tb ++ d) (j - 4) k ++ u32be (crc32 (tb ++ d))) := by
    rw [hab,
      flipBit_append_right (u32be d.length)
        ((tb ++ d) ++ u32be (crc32 (tb ++ d))) j k
        (by rw [length_u32be]; omega),
      length_u32be,
      flipBit_append_left (tb ++ d) (u32be (crc32 (tb ++ d))) (j - 4) k
        (by rw [List.length_append, htb]; omega)]
  constructor
  · -- flip inside the payload region
    intro hj8
    have hi : j - 4 - 4 < d.length := by omega
    have hstep : flipBit (tb ++ d) (j - 4) k =
        tb ++ flipBit d (j - 4 - 4) k := by
      rw [flipBit_append_right tb d (j - 4) k (by rw [htb]; omega), htb]
    have hd2 : (flipBit d (j - 4 - 4) k).length = d.length := by
      simp [flipBit]
    have hlay := tryFrom_layout tb (flipBit d (j - 4 - 4) k)
      (crc32 (tb ++ d)) [] htb (by rw [hd2]; exact hd) hK
    rw [hd2] at hlay
    have hmm2 : flipBit (Chunk.as_bytes ⟨⟨tb⟩, d⟩) j k =
        u32be d.length ++ tb ++ flipBit d (j - 4 - 4) k ++
          u32be (crc32 (tb ++ d)) ++ [] := by
      rw [hflip, hstep]
      simp [List.append_assoc]
    have hxlt : d.getD (j - 4 - 4) 0 < 256 := by
      rw [List.getD_eq_getElem _ _ hi]
      exact hdb _ (List.getElem_mem hi)
    have hsplit1 : tb ++ d =
        (tb ++ d.take (j - 4 - 4)) ++
          d.getD (j - 4 - 4) 0 :: d.drop (j - 4 - 4 + 1) := by
      conv_lhs => rw [eq_take_cons_drop d (j - 4 - 4) hi]
      rw [← List.append_assoc]
    have hsplit2 : tb ++ flipBit d (j - 4 - 4) k =
        (tb ++ d.take (j - 4 - 4)) ++
          (d.getD (j - 4 - 4) 0 ^^^ (1 <<< k)) :: d.drop (j - 4 - 4 + 1) := by
      rw [flipBit_eq_take_cons_drop d (j - 4 - 4) k hi, ← List.append_assoc]
    have hpre : ∀ b ∈ tb ++ d.take (j - 4 - 4), b < 256 := by
      intro b hb
      rcases List.mem_append.mp hb with h | h
      · exact htbb b h
      · exact hdb b (List.mem_of_mem_take h)
    have hsuf : ∀ b ∈ d.drop (j - 4 - 4 + 1), b < 256 :=
      fun b hb => hdb b (List.mem_of_mem_drop hb)
    have hcrcne : crc32 (tb ++ flipBit d (j - 4 - 4) k) ≠ crc32 (tb ++ d) := by
      rw [hsplit1, hsplit2]
      exact crc32_ne_flip _ _ _ k hpre hsuf hxlt hk
    rw [hmm2, hlay]
    simp [hv, hcrcne, isInvalidCrcErr]
  · -- flip inside the type-code region
    intro hj8
    have hi : j - 4 < tb.length := by rw [htb]; omega
    have hstep : flipBit (tb ++ d) (j - 4) k = flipBit tb (j - 4) k ++ d :=
      flipBit_append_left tb d (j - 4) k hi
    have htb2 : (flipBit tb (j - 4) k).length = 4 := by
      simp [flipBit, htb]
    have hmm2 : flipBit (Chunk.as_bytes ⟨⟨tb⟩, d⟩) j k =
        u32be d.length ++ flipBit tb (j - 4) k ++ d ++
          u32be (crc32 (tb ++ d)) ++ [] := by
      rw [hflip, hstep]
      simp [List.append_assoc]
    have hlay := tryFrom_layout (flipBit tb (j - 4) k) d
      (crc32 (tb ++ d)) [] htb2 hd hK
    constructor
    · intro hv2
      have hxlt : tb.getD (j - 4) 0 < 256 := by
        rw [List.getD_eq_getElem _ _ hi]
        exact htbb _ (List.getElem_mem hi)
      have hsplit1 : tb ++ d =
          tb.take (j - 4) ++
            tb.getD (j - 4) 0 :: (tb.drop (j - 4 + 1) ++ d) := by
        conv_lhs => rw [eq_take_cons_drop tb (j - 4) hi]
        rw [List.append_assoc, List.cons_append]
      have hsplit2 : flipBit tb (j - 4) k ++ d =
          tb.take (j - 4) ++
            (tb.getD (j - 4) 0 ^^^ (1 <<< k)) :: (tb.drop (j - 4 + 1) ++ d) := by
        rw [flipBit_eq_take_cons_drop tb (j - 4) k hi, List.append_assoc,
          List.cons_append]
      have hpre : ∀ b ∈ tb.take (j - 4), b < 256 :=
        fun b hb => htbb b (List.mem_of_mem_take hb)
      have hsuf : ∀ b ∈ tb.drop (j - 4 + 1) ++ d, b < 256 := by
        intro b hb
        rcases List.mem_append.mp hb with h | h
        · exact htbb b (List.mem_of_mem_drop h)
        · exact hdb b h
      have hcrcne : crc32 (flipBit tb (j - 4) k ++ d) ≠ crc32 (tb ++ d) := by
        rw [hsplit1, hsplit2]
        exact crc32_ne_flip _ _ _ k hpre hsuf hxlt hk
      rw [hmm2, hlay]
      simp [hv2, hcrcne, isInvalidCrcErr]
    · intro hv2
      rw [hmm2, hlay]
      simp [hv2]

/-- Witness for C3 (amended): flipping bit 0 of byte 8 (the single payload
byte) of the serialized `RuSt` chunk with payload `[7]` is caught as a CRC
mismatch. -/
theorem checksum_sensitivity_witness :
    isInvalidCrcErr
      (Chunk.tryFrom (flipBit (Chunk.as_bytes ⟨⟨rustType⟩, [7]⟩) 8 0)) =
      true :=
  (checksum_sensitivity rustType [7] 8 0 (by decide) (by decide) (by decide)
    (by decide) (by decide) (by decide) (by decide) (by decide)).1 (by decide)

/-! ## C4: the `Png` container

`main.rs` declares `mod png;` but `src/png.rs` is not among the visible
sources, so the container is modelled from the spec (§3 "ChunkContainer",
§4.3). -/

/-- Modelled from the spec: the fixed 8-byte signature
`89 50 4E 47 0D 0A 1A 0A` that starts every serialized container. -/
def pngHeader : List Nat := [137, 80, 78, 71, 13, 10, 26, 10]

/-- Modelled from the spec: `Png` (src/png.rs, not under src/), an ordered
sequence of chunks. -/
structure Png where
  chunks : List Chunk
deriving DecidableEq, Repr

/-- Modelled from the spec: `Png::append_chunk` inserts at the end of the
sequence. -/
def Png.appendChunk (p : Png) (c : Chunk) : Png := ⟨p.chunks ++ [c]⟩

/-- Modelled from the spec: `Png::as_bytes` is the signature followed by
each chunk's serialized bytes in sequence order. -/
def Png.as_bytes (p : Png) : List Nat :=
  pngHeader ++ (p.chunks.map Chunk.as_bytes).flatten

/-- Outcome of parsing the chunk stream after the signature. -/
inductive ChunksResult where
  | ok (cs : List Chunk)
  | err (e : ChunkError)
  | panic
deriving DecidableEq, Repr

/-- Modelled from the spec: repeatedly decode a chunk at the current
offset, advancing by exactly `12 + length` bytes after each successful
decode, until the buffer is exhausted; any failure aborts the whole
parse. -/
def Png.parseChunks (bytes : List Nat) : ChunksResult :=
  if _h : bytes.length = 0 then .ok []
  else
    match Chunk.tryFrom bytes with
    | .ok c =>
      match Png.parseChunks (bytes.drop (12 + c.data.length)) with
      | .ok cs => .ok (c :: cs)
      | r => r
    | .err e => .err e
    | .panic => .panic
termination_by bytes.length
decreasing_by
  rw [List.length_drop]
  omega

/-- Errors of `Png::try_from`. -/
inductive PngError where
  | badSignature
  | chunkError (e : ChunkError)
deriving DecidableEq, Repr

/-- Outcome of `Png::try_from`. -/
inductive PngResult where
  | ok (p : Png)
  | err (e : PngError)
  | panic
deriving DecidableEq, Repr

/-- Modelled from the spec: `Png::try_from` checks the 8-byte signature
(failing on a shorter buffer or a wrong signature) and then decodes the
chunk stream until the buffer is exhausted. -/
def Png.tryFrom (bytes : List Nat) : PngResult :=
  if bytes.take 8 ≠ pngHeader then .err .badSignature
  else
    match Png.parseChunks (bytes.drop 8) with
    | .ok cs => .ok ⟨cs⟩
    | .err e => .err (.chunkError e)
    | .panic => .panic

/-- A chunk as the Rust code can actually hold it: a 4-byte valid type
code and `u8` payload bytes whose count fits in `u32`. -/
def Chunk.wf (c : Chunk) : Prop :=
  c.chunk_type.bytes.length = 4 ∧
  ChunkType.is_valid c.chunk_type = true ∧
  (∀ b ∈ c.chunk_type.bytes, b < 256) ∧
  (∀ b ∈ c.data, b < 256) ∧
  c.data.length < 4294967296

instance (c : Chunk) : Decidable (Chunk.wf c) := by
  unfold Chunk.wf
  infer_instance

theorem length_as_bytes (c : Chunk) (htb : c.chunk_type.bytes.length = 4) :
    (Chunk.as_bytes c).length = 12 + c.data.length := by
  simp [Chunk.as_bytes, length_u32be, htb]
  omega

theorem parseChunks_frame (cs : List Chunk) (hwf : ∀ c ∈ cs, Chunk.wf c) :
    Png.parseChunks ((cs.map Chunk.as_bytes).flatten) = .ok cs := by
  induction cs with
  | nil =>
    unfold Png.parseChunks
    rfl
  | cons c cs2 ih =>
    obtain ⟨⟨tb⟩, d⟩ := c
    obtain ⟨htb, hv, htbb, hdb, hd⟩ :=
      hwf (Chunk.mk ⟨tb⟩ d) (List.mem_cons_self _ _)
    have htf : Chunk.tryFrom (Chunk.as_bytes ⟨⟨tb⟩, d⟩ ++
        (cs2.map Chunk.as_bytes).flatten) = .ok ⟨⟨tb⟩, d⟩ :=
      tryFrom_frame tb d _ htb hv htbb hdb hd
    have hlen : (Chunk.as_bytes ⟨⟨tb⟩, d⟩).length = 12 + d.length :=
      length_as_bytes _ htb
    have hdrop : ((Chunk.as_bytes ⟨⟨tb⟩, d⟩ ++
        (cs2.map Chunk.as_bytes).flatten)).drop (12 + d.length) =
        (cs2.map Chunk.as_bytes).flatten :=
      drop_append_of_length _ _ _ hlen
    have hne : ¬ ((Chunk.as_bytes ⟨⟨tb⟩, d⟩ ++
        (cs2.map Chunk.as_bytes).flatten)).length = 0 := by
      rw [List.length_append, hlen]
      omega
    rw [List.map_cons, List.flatten_cons]
    unfold Png.parseChunks
    rw [dif_neg hne]
    simp only [htf, hdrop, ih (fun x hx => hwf x (by simp [hx]))]

/-- C4.  Modelled from the spec: a container built purely by `append` from
well-formed chunks serializes to the fixed signature followed by the
chunks' serializations in order, and deserializing that buffer succeeds
and returns an identical chunk sequence. -/
theorem png_roundtrip (cs : List Chunk) (hwf : ∀ c ∈ cs, Chunk.wf c) :
    cs.foldl Png.appendChunk ⟨[]⟩ = ⟨cs⟩ ∧
    Png.as_bytes ⟨cs⟩ =
      [137, 80, 78, 71, 13, 10, 26, 10] ++ (cs.map Chunk.as_bytes).flatten ∧
    Png.tryFrom (Png.as_bytes ⟨cs⟩) = .ok ⟨cs⟩ := by
  refine ⟨?_, rfl, ?_⟩
  · have hgen : ∀ (l : List Chunk) (acc : List Chunk),
        l.foldl Png.appendChunk ⟨acc⟩ = ⟨acc ++ l⟩ := by
      intro l
      induction l with
      | nil => intro acc; simp
      | cons x xs ih =>
        intro acc
        rw [List.foldl_cons]
        show xs.foldl Png.appendChunk ⟨acc ++ [x]⟩ = _
        rw [ih (acc ++ [x])]
        simp
    simpa using hgen cs []
  · have htake : (Png.as_bytes ⟨cs⟩).take 8 = pngHeader := by
      unfold Png.as_bytes
      exact take_append_of_length _ _ 8 rfl
    have hdrop : (Png.as_bytes ⟨cs⟩).drop 8 =
        (cs.map Chunk.as_bytes).flatten := by
      unfold Png.as_bytes
      exact drop_append_of_length _ _ 8 rfl
    unfold Png.tryFrom
    rw [if_neg (by rw [htake]; exact fun h => h rfl), hdrop,
      parseChunks_frame cs hwf]

/-- Witness for C4: the container holding the single chunk
`(RuSt, [7])`. -/
theorem png_roundtrip_witness :
    Png.tryFrom (Png.as_bytes ⟨[⟨⟨rustType⟩, [7]⟩]⟩) =
      .ok ⟨[⟨⟨rustType⟩, [7]⟩]⟩ :=
  (png_roundtrip [⟨⟨rustType⟩, [7]⟩] (by decide)).2.2

end Pngme
